import Mathlib

/-!
# Verification of the `chocodye` recipe core

Shallow embedding of the color model, the item table, the bit-packed snack
multiset, the palette classifier and the recipe-compaction algorithm of the
`chocodye` crate, together with proofs of the specification's claims about
them.

Machine integers (`u8`, `u32`, `u64`, `i8`, `i16`) are embedded as `Nat`/`Int`
with explicit range hypotheses or `% 2 ^ w` where wrap-around matters.
-/

namespace Chocodye

/-! ## Color model (`src/rgb.rs`) -/

/-- A color represented by three `u8` components (`Rgb` in `src/rgb.rs`).
Each channel is a `Nat`; the `u8` invariant `≤ 255` is carried as the
predicate `Rgb.inRange`. -/
structure Rgb where
  r : Nat
  g : Nat
  b : Nat
deriving DecidableEq, Repr

/-- The `u8` range invariant of all three channels. -/
def Rgb.inRange (c : Rgb) : Prop :=
  c.r ≤ 255 ∧ c.g ≤ 255 ∧ c.b ≤ 255

instance (c : Rgb) : Decidable c.inRange := by
  unfold Rgb.inRange; infer_instance

/-- `u8::checked_add_signed` on one channel: `c + d` if the result fits in
`[0, 255]`, `none` on overflow. (`c` is a `u8`, `d` an `i8`.) -/
def checkedAddSigned1 (c : Nat) (d : Int) : Option Nat :=
  let v : Int := (c : Int) + d
  if 0 ≤ v ∧ v ≤ 255 then some v.toNat else none

/-- `Rgb::checked_add_signed` (`src/rgb.rs`): apply three signed deltas,
failing if any channel leaves `[0, 255]`. -/
def Rgb.checkedAddSigned (c : Rgb) (dr dg db : Int) : Option Rgb := do
  let r ← checkedAddSigned1 c.r dr
  let g ← checkedAddSigned1 c.g dg
  let b ← checkedAddSigned1 c.b db
  pure ⟨r, g, b⟩

/-- `Rgb::distance` (`src/rgb.rs`): squared Euclidean distance. The Rust
code computes each `dx * dx` in `i32` and casts to `u32`; for channels
`≤ 255` the squares are nonnegative and exact, so `Int.toNat` is faithful. -/
def Rgb.distance (a c : Rgb) : Nat :=
  (((a.r : Int) - c.r) * ((a.r : Int) - c.r)).toNat
    + (((a.g : Int) - c.g) * ((a.g : Int) - c.g)).toNat
    + (((a.b : Int) - c.b) * ((a.b : Int) - c.b)).toNat

/-! ## Item table (`src/snack.rs`) -/

/-- The six snacks (`Snack` in `src/snack.rs`). -/
inductive Snack where
  | Apple
  | Pear
  | Berries
  | Plum
  | Fruit
  | Pineapple
deriving DecidableEq, Repr, Fintype

/-- The `#[repr(u8)]` discriminant of each variant. -/
def Snack.idx : Snack → Nat
  | .Apple => 0
  | .Pear => 1
  | .Berries => 2
  | .Plum => 3
  | .Fruit => 4
  | .Pineapple => 5

/-- `Snack::VALUES`: all six variants in enumeration order. -/
def Snack.VALUES : List Snack :=
  [.Apple, .Pear, .Berries, .Plum, .Fruit, .Pineapple]

/-- `Snack::effect`: the constant signed per-channel deltas. -/
def Snack.effect : Snack → Int × Int × Int
  | .Apple => (5, -5, -5)
  | .Pear => (-5, 5, -5)
  | .Berries => (-5, -5, 5)
  | .Plum => (-5, 5, 5)
  | .Fruit => (5, -5, 5)
  | .Pineapple => (5, 5, -5)

/-- `Snack::alter`: apply the snack's effect via checked addition. -/
def Snack.alter (s : Snack) (c : Rgb) : Option Rgb :=
  c.checkedAddSigned s.effect.1 s.effect.2.1 s.effect.2.2

/-! ## Snack multiset (`SnackList`, `src/lib.rs` and `src/snack.rs`) -/

/-- `SnackList`: a `NonZeroU64` holding one count byte per snack
(byte `k` = count of the snack with discriminant `k`) plus the sentinel
bit `1 << 63`. The `u64` value is embedded as a `Nat`. -/
structure SnackList where
  val : Nat
deriving DecidableEq, Repr

/-- `SnackList::new`: the empty multiset, `1 << 63`. -/
def SnackList.new : SnackList := ⟨2 ^ 63⟩

/-- `SnackList::get`: `(val >> (8 * snack as usize)) & 0xFF`, i.e. byte
`snack.idx` of the word. Shift and mask are written as division and
remainder by powers of two. -/
def SnackList.get (sl : SnackList) (s : Snack) : Nat :=
  sl.val / 2 ^ (8 * s.idx) % 256

/-- `SnackList::set`: clear byte `snack.idx` then or the new value in.
On the cleared word, `| (value << (8 * snack))` is addition of
`value * 2 ^ (8 * snack)`; clearing the byte is subtraction of its
current contribution. -/
def SnackList.set (sl : SnackList) (s : Snack) (v : Nat) : SnackList :=
  ⟨sl.val - sl.get s * 2 ^ (8 * s.idx) + v * 2 ^ (8 * s.idx)⟩

/-- `SnackList::is_empty`: comparison of the raw word with `1 << 63`. -/
def SnackList.isEmpty (sl : SnackList) : Bool :=
  sl.val == 2 ^ 63

/-- The loop body of `SnackList::sum`: seven iterations of
`acc += me & 0xFF; me >>= 8`. -/
def sumAux : Nat → Nat → Nat
  | 0, _ => 0
  | k + 1, me => me % 256 + sumAux k (me / 256)

/-- `SnackList::sum`: total of the low seven bytes. -/
def SnackList.sum (sl : SnackList) : Nat :=
  sumAux 7 sl.val

/-- The loop body of `SnackList::kinds`: seven iterations of
`if (me & 0xFF) != 0 { count += 1 }; me >>= 8`. -/
def kindsAux : Nat → Nat → Nat
  | 0, _ => 0
  | k + 1, me => (if me % 256 ≠ 0 then 1 else 0) + kindsAux k (me / 256)

/-- `SnackList::kinds`: number of nonzero bytes among the low seven. -/
def SnackList.kinds (sl : SnackList) : Nat :=
  kindsAux 7 sl.val

/-- Well-formedness of a `SnackList` word: sentinel bit set, nothing in
bytes 6 and 7 besides the sentinel. Every value reachable through
`new`/`set` with byte-sized counts satisfies this. -/
def SnackList.WF (sl : SnackList) : Prop :=
  2 ^ 63 ≤ sl.val ∧ sl.val < 2 ^ 63 + 2 ^ 48

instance (sl : SnackList) : Decidable sl.WF := by
  unfold SnackList.WF; infer_instance

/-- `From<&[Snack]> for SnackList`: starting from the empty word, add
`1 << (8 * snack as usize)` for each element; `u64` addition wraps
modulo `2 ^ 64`. -/
def SnackList.fromList (l : List Snack) : SnackList :=
  ⟨l.foldl (fun a s => (a + 2 ^ (8 * s.idx)) % 2 ^ 64) (2 ^ 63)⟩

/-! ## Palette classifier (`src/dye.rs`) -/

/-- Rust's `Iterator::min_by_key` on a nonempty sequence `x :: xs`: fold
keeping the running best, replaced only by a strictly smaller key, so the
first minimal element wins ties. -/
def minByKey {α : Type} (key : α → Nat) (x : α) (xs : List α) : α :=
  xs.foldl (fun best y => if key y < key best then y else best) x

/-- Modelled from the spec: the palette table (`dyes.xml`, compiled into the
generated `Dye` enum by the build script) is not under `src/`. Per spec §3 a
palette is a fixed finite enumeration of named colors, each mapped to one
RGB triple; it is modelled as the list of those triples in enumeration
order, a dye being identified by its enumeration index. -/
abbrev Palette : Type := List Rgb

/-- `TryFrom<Rgb> for Dye` (`src/dye.rs`):
`Dye::VALUES.iter().copied().min_by_key(|d| d.color().distance(value))`
followed by the exact-match test `dye.color() == value`, giving `Ok` on an
exact match and `Err` on a nearest match. The entry is carried as an
(index, color) pair from the palette's enumeration; the `.unwrap()` panic
on an empty palette is the `none` case. -/
def tryFrom (palette : Palette) (value : Rgb) : Option (Except (Nat × Rgb) (Nat × Rgb)) :=
  match List.enum palette with
  | [] => none
  | e :: es =>
    let dye := minByKey (fun p => p.2.distance value) e es
    some (if dye.2 = value then .ok dye else .error dye)

/-! ## Recipe compaction (`make_menu`, `src/lib.rs`) -/

/-- The helper `max` inside `make_menu`: the largest `q` with
`0 ≤ c + q * d ≤ 255`. For `d > 0` the Rust code computes
`(u8::MAX - c) / (d as u8)`; for `d ≤ 0` it computes
`(-(c as i16) / (d as i16)) as u8`, a truncating `i16` division of the
nonnegative quotient `-c / d = c / |d|`, i.e. floor division `c / |d|`.
(For `d = 0` the source divides by zero and panics; the six snacks all
have deltas `±5`, so this branch is unreachable.) -/
def maxRepeat (c : Nat) (d : Int) : Nat :=
  if 0 < d then (255 - c) / d.toNat
  else c / (-d).toNat

/-- The helper `Q` inside `make_menu`: the per-snack repeat bound
`qr.min(qg).min(qb)` over the three channels. -/
def Qbound (c : Rgb) (s : Snack) : Nat :=
  min (min (maxRepeat c.r s.effect.1) (maxRepeat c.g s.effect.2.1))
    (maxRepeat c.b s.effect.2.2)

/-- One channel of `bt_color` in `backtrack`:
`((c as i16) + (n as i16) * (d as i16)) as u8`. The `i16 → u8` cast keeps
the low byte, i.e. the value modulo 256 (`Int.emod` is nonnegative). -/
def advance1 (c : Nat) (d : Int) (n : Nat) : Nat :=
  (((c : Int) + n * d) % 256).toNat

/-- `bt_color` in `backtrack`: all three channels advanced by `n`
applications of `snack`. -/
def advance (c : Rgb) (s : Snack) (n : Nat) : Rgb :=
  ⟨advance1 c.r s.effect.1 n, advance1 c.g s.effect.2.1 n,
    advance1 c.b s.effect.2.2 n⟩

/-- The `for (snack, count) in remaining` loop of `backtrack`, iterating
over the six snacks in enumeration order. `f` is the recursive call
(`backtrack` at the next depth), `menu` the running best candidate; a
candidate replaces it when strictly shorter or when none is held yet. -/
def btLoop (f : SnackList → Rgb → List (Snack × Nat) → Except Unit (List (Snack × Nat)))
    (remaining : SnackList) (currentColor : Rgb) (currentMenu : List (Snack × Nat)) :
    List Snack → List (Snack × Nat) → Except Unit (List (Snack × Nat))
  | [], menu => pure menu
  | snack :: rest, menu =>
    let count := remaining.get snack
    let n := min (Qbound currentColor snack) count
    if n = 0 then
      btLoop f remaining currentColor currentMenu rest menu
    else do
      let btResult ← f (remaining.set snack (count - n)) (advance currentColor snack n)
        (currentMenu ++ [(snack, n)])
      btLoop f remaining currentColor currentMenu rest
        (if btResult.length < menu.length ∨ menu = [] then btResult else menu)

/-- `backtrack` in `make_menu` (`src/lib.rs`): explore, for every snack
with a nonzero usable count, removing the maximal batch of it, and keep
the candidate menu with the fewest batches; if no snack is usable, the
remaining multiset must be empty (`debug_assert!`) — a nonempty remainder
is the fatal invariant violation, modelled as `Except.error` (the abort
of builds with debug assertions enabled, e.g. the test profile).

The Rust recursion terminates because every recursive call removes at
least one snack from `remaining`; the embedding makes this explicit with
a structural `fuel` argument, kept strictly larger than the number of
snacks still to place (`make_menu` below supplies `sum + 1`). -/
def backtrackF : Nat → SnackList → Rgb → List (Snack × Nat) →
    Except Unit (List (Snack × Nat))
  | 0, _, _, _ => throw ()
  | fuel + 1, remaining, currentColor, currentMenu => do
    let menu ← btLoop (backtrackF fuel) remaining currentColor currentMenu Snack.VALUES []
    if menu ≠ [] then
      pure menu
    else if remaining.isEmpty then
      pure currentMenu
    else
      throw ()

/-- `make_menu` (`src/lib.rs`): `backtrack(snacks, starting_dye.color(), vec![])`.
The starting dye enters only through its RGB triple, so the embedding
takes that color directly. -/
def makeMenu (startingColor : Rgb) (snacks : SnackList) :
    Except Unit (List (Snack × Nat)) :=
  backtrackF (snacks.sum + 1) snacks startingColor []

/-! ## Application semantics

Applying snacks one at a time with checked arithmetic, as the crate's own
round-trip test (`all_is_ok` in `src/lib.rs`) does: a meal is applied
snack by snack, a menu batch by batch with each batch applied as `count`
single checked applications. -/

/-- Apply a list of snacks in order with checked arithmetic
(`rgb = snack.alter(rgb).unwrap()` in `all_is_ok`). -/
def applyMeal (c : Rgb) : List Snack → Option Rgb
  | [] => some c
  | s :: rest => (s.alter c).bind fun c' => applyMeal c' rest

/-- Apply `n` single checked applications of one snack
(the inner `for i in 0..count` loop of `all_is_ok`). -/
def applySnackN (c : Rgb) (s : Snack) : Nat → Option Rgb
  | 0 => some c
  | n + 1 => (s.alter c).bind fun c' => applySnackN c' s n

/-- Apply a menu batch by batch. -/
def applyMenu (c : Rgb) : List (Snack × Nat) → Option Rgb
  | [] => some c
  | (s, n) :: rest => (applySnackN c s n).bind fun c' => applyMenu c' rest

/-- The color reached from `c` after consuming the whole multiset `rem`:
each channel moves by the total signed effect of all counted snacks. -/
def endColor (c : Rgb) (rem : SnackList) : Rgb :=
  ⟨((c.r : Int) + ((Snack.VALUES.map fun s => (rem.get s : Int) * s.effect.1).sum)).toNat,
    ((c.g : Int) + ((Snack.VALUES.map fun s => (rem.get s : Int) * s.effect.2.1).sum)).toNat,
    ((c.b : Int) + ((Snack.VALUES.map fun s => (rem.get s : Int) * s.effect.2.2).sum)).toNat⟩

/-- The backtracking result property: the returned menu extends the prefix
with a suffix that applies cleanly from the node's color and consumes the
node's whole multiset. -/
def MenuP (col : Rgb) (rem : SnackList) (cur m : List (Snack × Nat)) : Prop :=
  ∃ suffix, m = cur ++ suffix ∧ applyMenu col suffix = some (endColor col rem)

/-! ## Multiset lemmas

Facts about the bit-packed word under the well-formedness invariant,
proved by case analysis on the snack (making the byte offset concrete)
followed by linear arithmetic with division and remainder by powers of
two. -/

theorem get_set_same (sl : SnackList) (s : Snack) (v : Nat) (hWF : sl.WF) (hv : v ≤ 255) :
    (sl.set s v).get s = v := by
  obtain ⟨h1, h2⟩ := hWF
  cases s <;> simp only [SnackList.set, SnackList.get, Snack.idx] at * <;>
    norm_num at * <;> omega

theorem get_set_other (sl : SnackList) (s t : Snack) (v : Nat) (hWF : sl.WF) (hv : v ≤ 255)
    (hne : t ≠ s) : (sl.set s v).get t = sl.get t := by
  obtain ⟨h1, h2⟩ := hWF
  cases s <;> cases t <;> first
  | exact absurd rfl hne
  | (simp only [SnackList.set, SnackList.get, Snack.idx] at * <;> norm_num at * <;> omega)

theorem WF_set (sl : SnackList) (s : Snack) (v : Nat) (hWF : sl.WF) (hv : v ≤ 255) :
    (sl.set s v).WF := by
  obtain ⟨h1, h2⟩ := hWF
  cases s <;> simp only [SnackList.set, SnackList.get, SnackList.WF, Snack.idx] at * <;>
    norm_num at * <;> omega

theorem get_le (sl : SnackList) (s : Snack) : sl.get s ≤ 255 := by
  have h : sl.val / 2 ^ (8 * s.idx) % 256 < 256 :=
    Nat.mod_lt _ (by omega)
  unfold SnackList.get
  omega

theorem isEmpty_iff (sl : SnackList) (hWF : sl.WF) :
    sl.isEmpty = true ↔ ∀ s : Snack, sl.get s = 0 := by
  obtain ⟨h1, h2⟩ := hWF
  constructor
  · intro h s
    simp only [SnackList.isEmpty, beq_iff_eq] at h
    cases s <;> simp only [SnackList.get, Snack.idx] <;> norm_num <;> omega
  · intro h
    have hA := h .Apple
    have hP := h .Pear
    have hB := h .Berries
    have hL := h .Plum
    have hF := h .Fruit
    have hN := h .Pineapple
    simp only [SnackList.get, Snack.idx] at hA hP hB hL hF hN
    simp only [SnackList.isEmpty, beq_iff_eq]
    norm_num at hA hP hB hL hF hN ⊢
    omega

theorem sum_eq (sl : SnackList) (hWF : sl.WF) :
    sl.sum = (Snack.VALUES.map sl.get).sum := by
  obtain ⟨h1, h2⟩ := hWF
  simp only [SnackList.sum, sumAux, Snack.VALUES, SnackList.get, Snack.idx,
    List.map_cons, List.map_nil, List.sum_cons, List.sum_nil, Nat.div_div_eq_div_mul]
  norm_num
  omega

theorem kinds_eq (sl : SnackList) (hWF : sl.WF) :
    sl.kinds = Snack.VALUES.countP (fun s => sl.get s != 0) := by
  obtain ⟨h1, h2⟩ := hWF
  simp only [SnackList.kinds, kindsAux, Snack.VALUES, SnackList.get, Snack.idx,
    List.countP_cons, List.countP_nil, bne_iff_ne, ne_eq, decide_not,
    Nat.div_div_eq_div_mul]
  norm_num
  split_ifs <;> omega

/-- Summing a function over a list of snacks equals summing, over the six
variants, the variant's occurrence count times its value. -/
theorem sum_map_count_nat (f : Snack → Nat) (l : List Snack) :
    (l.map f).sum = (Snack.VALUES.map fun v => l.count v * f v).sum := by
  induction l with
  | nil =>
    simp only [List.map_nil, List.sum_nil, Snack.VALUES, List.count_nil, List.map_cons,
      List.sum_cons, Nat.zero_mul]
    omega
  | cons s t ih =>
    simp only [List.map_cons, List.sum_cons, ih, List.count_cons, beq_iff_eq]
    have hsplit : ∀ v : Snack, (t.count v + if s = v then 1 else 0) * f v
        = t.count v * f v + (if s = v then f v else 0) := by
      intro v; split_ifs <;> ring
    simp only [hsplit]
    have hadd : (Snack.VALUES.map fun v => t.count v * f v + (if s = v then f v else 0)).sum
        = (Snack.VALUES.map fun v => t.count v * f v).sum
          + (Snack.VALUES.map fun v => if s = v then f v else 0).sum := by
      simp only [Snack.VALUES, List.map_cons, List.map_nil, List.sum_cons, List.sum_nil]
      ring
    rw [hadd]
    have hone : (Snack.VALUES.map fun v => if s = v then f v else 0).sum = f s := by
      cases s <;> simp [Snack.VALUES]
    rw [hone]; ring

theorem fromList_val (l : List Snack) (h : ∀ s, l.count s ≤ 255) :
    (SnackList.fromList l).val
      = 2 ^ 63 + (Snack.VALUES.map fun v => l.count v * 2 ^ (8 * v.idx)).sum := by
  have key : ∀ (l' : List Snack) (a : Nat),
      a + ((l'.map fun s => 2 ^ (8 * s.idx)).sum) < 2 ^ 64 →
      l'.foldl (fun a s => (a + 2 ^ (8 * s.idx)) % 2 ^ 64) a
        = a + (l'.map fun s => 2 ^ (8 * s.idx)).sum := by
    intro l'
    induction l' with
    | nil => intro a _; simp
    | cons s t ih =>
      intro a hb
      simp only [List.map_cons, List.sum_cons] at hb
      simp only [List.foldl_cons, List.map_cons, List.sum_cons]
      rw [Nat.mod_eq_of_lt (by omega), ih _ (by omega)]
      omega
  have hc : (l.map fun s => 2 ^ (8 * s.idx)).sum
      = (Snack.VALUES.map fun v => l.count v * 2 ^ (8 * v.idx)).sum :=
    sum_map_count_nat _ l
  have hA := h .Apple
  have hP := h .Pear
  have hB := h .Berries
  have hL := h .Plum
  have hF := h .Fruit
  have hN := h .Pineapple
  have hbound : 2 ^ 63 + ((l.map fun s => 2 ^ (8 * s.idx)).sum) < 2 ^ 64 := by
    rw [hc]
    simp only [Snack.VALUES, List.map_cons, List.map_nil, List.sum_cons, List.sum_nil,
      Snack.idx]
    norm_num
    omega
  unfold SnackList.fromList
  rw [key l _ hbound, hc]

theorem fromList_get (l : List Snack) (h : ∀ s, l.count s ≤ 255) (s : Snack) :
    (SnackList.fromList l).get s = l.count s := by
  have hv := fromList_val l h
  have hA := h .Apple
  have hP := h .Pear
  have hB := h .Berries
  have hL := h .Plum
  have hF := h .Fruit
  have hN := h .Pineapple
  unfold SnackList.get
  rw [hv]
  simp only [Snack.VALUES, List.map_cons, List.map_nil, List.sum_cons, List.sum_nil] at *
  cases s <;> simp only [Snack.idx] <;> norm_num <;> omega

theorem fromList_WF (l : List Snack) (h : ∀ s, l.count s ≤ 255) :
    (SnackList.fromList l).WF := by
  have hv := fromList_val l h
  have hA := h .Apple
  have hP := h .Pear
  have hB := h .Berries
  have hL := h .Plum
  have hF := h .Fruit
  have hN := h .Pineapple
  unfold SnackList.WF
  rw [hv]
  simp only [Snack.VALUES, List.map_cons, List.map_nil, List.sum_cons, List.sum_nil,
    Snack.idx] at *
  norm_num
  omega

/-! ## Repeat-bound characterization

The helper `max`/`Q` of `make_menu`, characterized as the exact set of
admissible repeat counts. -/

/-- Every per-channel delta of every snack is `5` or `-5`. -/
theorem effect_pm5 (s : Snack) :
    (s.effect.1 = 5 ∨ s.effect.1 = -5) ∧ (s.effect.2.1 = 5 ∨ s.effect.2.1 = -5)
      ∧ (s.effect.2.2 = 5 ∨ s.effect.2.2 = -5) := by
  cases s <;> simp [Snack.effect]

theorem maxRepeat_iff (c : Nat) (hc : c ≤ 255) (d : Int) (hd : d = 5 ∨ d = -5) (n : Nat) :
    ((0 : Int) ≤ c + n * d ∧ (c : Int) + n * d ≤ 255) ↔ n ≤ maxRepeat c d := by
  rcases hd with h | h <;> subst h
  · have h5 : Int.toNat 5 = 5 := rfl
    simp only [maxRepeat]
    norm_num
    rw [h5]
    omega
  · have h5 : Int.toNat 5 = 5 := rfl
    simp only [maxRepeat]
    norm_num
    rw [h5]
    omega

theorem Qbound_iff (c : Rgb) (hc : c.inRange) (s : Snack) (n : Nat) :
    (((0 : Int) ≤ c.r + n * s.effect.1 ∧ (c.r : Int) + n * s.effect.1 ≤ 255)
      ∧ ((0 : Int) ≤ c.g + n * s.effect.2.1 ∧ (c.g : Int) + n * s.effect.2.1 ≤ 255)
      ∧ ((0 : Int) ≤ c.b + n * s.effect.2.2 ∧ (c.b : Int) + n * s.effect.2.2 ≤ 255))
      ↔ n ≤ Qbound c s := by
  obtain ⟨hr, hg, hb⟩ := hc
  obtain ⟨er, eg, eb⟩ := effect_pm5 s
  rw [maxRepeat_iff c.r hr _ er n, maxRepeat_iff c.g hg _ eg n, maxRepeat_iff c.b hb _ eb n]
  unfold Qbound
  omega

/-! ## Batch application

A batch `(snack, n)` with `n ≤ Q` applies cleanly: all `n` single checked
applications succeed and land on `bt_color`. -/

theorem Rgb.ext' (a c : Rgb) (h1 : a.r = c.r) (h2 : a.g = c.g) (h3 : a.b = c.b) : a = c := by
  cases a
  cases c
  simp only at h1 h2 h3
  rw [h1, h2, h3]

theorem checkedAddSigned1_pos (c : Nat) (d : Int) (h0 : 0 ≤ (c : Int) + d)
    (h1 : (c : Int) + d ≤ 255) :
    checkedAddSigned1 c d = some ((c : Int) + d).toNat := by
  simp only [checkedAddSigned1]
  rw [if_pos ⟨h0, h1⟩]

theorem advance1_eq (c : Nat) (d : Int) (n : Nat) (h0 : 0 ≤ (c : Int) + n * d)
    (h255 : (c : Int) + n * d ≤ 255) :
    advance1 c d n = ((c : Int) + n * d).toNat := by
  unfold advance1
  rw [Int.emod_eq_of_lt h0 (by omega)]

theorem advance1_comp (c c1 : Nat) (d : Int) (n : Nat) (hc1 : (c1 : Int) = c + d) :
    advance1 c1 d n = advance1 c d (n + 1) := by
  unfold advance1
  have h : (c1 : Int) + n * d = c + ((n + 1 : Nat) : Int) * d := by
    rw [hc1]
    push_cast
    ring
  rw [h]

theorem advance_spec (c : Rgb) (s : Snack) (hc : c.inRange) (n : Nat)
    (h : n ≤ Qbound c s) :
    (advance c s n).inRange
      ∧ ((advance c s n).r : Int) = c.r + n * s.effect.1
      ∧ ((advance c s n).g : Int) = c.g + n * s.effect.2.1
      ∧ ((advance c s n).b : Int) = c.b + n * s.effect.2.2 := by
  obtain ⟨⟨hr0, hr1⟩, ⟨hg0, hg1⟩, ⟨hb0, hb1⟩⟩ := (Qbound_iff c hc s n).mpr h
  unfold advance
  rw [advance1_eq c.r _ n hr0 hr1, advance1_eq c.g _ n hg0 hg1,
    advance1_eq c.b _ n hb0 hb1]
  unfold Rgb.inRange
  dsimp only
  refine ⟨⟨?_, ?_, ?_⟩, ?_, ?_, ?_⟩ <;> omega

theorem advance_zero (c : Rgb) (hc : c.inRange) (s : Snack) : advance c s 0 = c := by
  obtain ⟨_, e1, e2, e3⟩ := advance_spec c s hc 0 (Nat.zero_le _)
  simp only [Nat.cast_zero, Int.zero_mul, Int.add_zero] at e1 e2 e3
  exact Rgb.ext' _ _ (by omega) (by omega) (by omega)

theorem alter_eq (c : Rgb) (s : Snack) (hc : c.inRange) (h1 : 1 ≤ Qbound c s) :
    s.alter c = some (advance c s 1) := by
  obtain ⟨⟨hr0, hr1⟩, ⟨hg0, hg1⟩, ⟨hb0, hb1⟩⟩ := (Qbound_iff c hc s 1).mpr h1
  simp only [Nat.cast_one, one_mul] at hr0 hr1 hg0 hg1 hb0 hb1
  unfold Snack.alter Rgb.checkedAddSigned
  rw [checkedAddSigned1_pos c.r _ hr0 hr1, checkedAddSigned1_pos c.g _ hg0 hg1,
    checkedAddSigned1_pos c.b _ hb0 hb1]
  obtain ⟨_, e1, e2, e3⟩ := advance_spec c s hc 1 h1
  simp only [Nat.cast_one, one_mul] at e1 e2 e3
  have g1 : ((c.r : Int) + s.effect.1).toNat = (advance c s 1).r := by omega
  have g2 : ((c.g : Int) + s.effect.2.1).toNat = (advance c s 1).g := by omega
  have g3 : ((c.b : Int) + s.effect.2.2).toNat = (advance c s 1).b := by omega
  simp [g1, g2, g3]

theorem applySnackN_eq (s : Snack) : ∀ (n : Nat) (c : Rgb), c.inRange → n ≤ Qbound c s →
    applySnackN c s n = some (advance c s n) := by
  intro n
  induction n with
  | zero =>
    intro c hc _
    rw [advance_zero c hc s]
    rfl
  | succ n ih =>
    intro c hc h
    have h1 : 1 ≤ Qbound c s := by omega
    obtain ⟨hin1, e1, e2, e3⟩ := advance_spec c s hc 1 h1
    simp only [Nat.cast_one, one_mul] at e1 e2 e3
    have hQ1 : n ≤ Qbound (advance c s 1) s := by
      rw [← Qbound_iff _ hin1 s n]
      obtain ⟨⟨ar0, ar1⟩, ⟨ag0, ag1⟩, ⟨ab0, ab1⟩⟩ := (Qbound_iff c hc s (n + 1)).mpr h
      rw [e1, e2, e3]
      push_cast at ar0 ar1 ag0 ag1 ab0 ab1 ⊢
      refine ⟨⟨?_, ?_⟩, ⟨?_, ?_⟩, ⟨?_, ?_⟩⟩ <;> nlinarith
    show (s.alter c).bind (fun c' => applySnackN c' s n) = some (advance c s (n + 1))
    rw [alter_eq c s hc h1]
    simp only [Option.some_bind]
    rw [ih (advance c s 1) hin1 hQ1]
    congr 1
    exact Rgb.ext' _ _ (advance1_comp c.r _ _ n e1) (advance1_comp c.g _ _ n e2)
      (advance1_comp c.b _ _ n e3)

/-! ## End-color bookkeeping for compaction -/

/-- Removing `δ` from the `s`-entry of a per-snack total lowers the sum by `δ`. -/
theorem sum_sub (δ : Int) (g g' : Snack → Int) (s : Snack) (hs : g' s = g s - δ)
    (ho : ∀ t, t ≠ s → g' t = g t) :
    (Snack.VALUES.map fun v => g' v).sum = (Snack.VALUES.map fun v => g v).sum - δ := by
  simp only [Snack.VALUES, List.map_cons, List.map_nil, List.sum_cons, List.sum_nil]
  cases s with
  | Apple =>
    rw [hs, ho .Pear (by decide), ho .Berries (by decide), ho .Plum (by decide),
      ho .Fruit (by decide), ho .Pineapple (by decide)]
    ring
  | Pear =>
    rw [hs, ho .Apple (by decide), ho .Berries (by decide), ho .Plum (by decide),
      ho .Fruit (by decide), ho .Pineapple (by decide)]
    ring
  | Berries =>
    rw [hs, ho .Apple (by decide), ho .Pear (by decide), ho .Plum (by decide),
      ho .Fruit (by decide), ho .Pineapple (by decide)]
    ring
  | Plum =>
    rw [hs, ho .Apple (by decide), ho .Pear (by decide), ho .Berries (by decide),
      ho .Fruit (by decide), ho .Pineapple (by decide)]
    ring
  | Fruit =>
    rw [hs, ho .Apple (by decide), ho .Pear (by decide), ho .Berries (by decide),
      ho .Plum (by decide), ho .Pineapple (by decide)]
    ring
  | Pineapple =>
    rw [hs, ho .Apple (by decide), ho .Pear (by decide), ho .Berries (by decide),
      ho .Plum (by decide), ho .Fruit (by decide)]
    ring

theorem endColor_empty (col : Rgb) (hcol : col.inRange) (rem : SnackList) (hWF : rem.WF)
    (h : rem.isEmpty = true) : endColor col rem = col := by
  have hz := (isEmpty_iff rem hWF).mp h
  obtain ⟨hr, hg, hb⟩ := hcol
  unfold endColor
  simp only [Snack.VALUES, List.map_cons, List.map_nil, List.sum_cons, List.sum_nil,
    hz .Apple, hz .Pear, hz .Berries, hz .Plum, hz .Fruit, hz .Pineapple]
  refine Rgb.ext' _ _ ?_ ?_ ?_ <;> dsimp only <;> push_cast <;> omega

theorem endColor_step (col : Rgb) (hcol : col.inRange) (rem : SnackList) (hWF : rem.WF)
    (s : Snack) (n : Nat) (hn : n ≤ rem.get s) (hQ : n ≤ Qbound col s) :
    endColor col rem = endColor (advance col s n) (rem.set s (rem.get s - n)) := by
  have hle := get_le rem s
  have hsame : (rem.set s (rem.get s - n)).get s = rem.get s - n :=
    get_set_same _ _ _ hWF (by omega)
  have hother : ∀ t, t ≠ s → (rem.set s (rem.get s - n)).get t = rem.get t :=
    fun t ht => get_set_other _ _ t _ hWF (by omega) ht
  obtain ⟨_, e1, e2, e3⟩ := advance_spec col s hcol n hQ
  have hsub : ∀ f : Snack → Int,
      (Snack.VALUES.map fun v => ((rem.set s (rem.get s - n)).get v : Int) * f v).sum
        = (Snack.VALUES.map fun v => (rem.get v : Int) * f v).sum - n * f s := by
    intro f
    refine sum_sub (n * f s) _ _ s ?_ ?_
    · rw [hsame]
      push_cast [Nat.cast_sub hn]
      ring
    · intro t ht
      rw [hother t ht]
  unfold endColor
  refine Rgb.ext' _ _ ?_ ?_ ?_ <;> dsimp only <;> congr 1
  · rw [hsub fun v => v.effect.1, e1]
    ring
  · rw [hsub fun v => v.effect.2.1, e2]
    ring
  · rw [hsub fun v => v.effect.2.2, e3]
    ring

/-! ## Backtracking correctness

If `backtrack` returns without hitting the `debug_assert!`, the returned
menu extends the prefix with batches that apply cleanly and consume the
whole remaining multiset. -/

theorem btLoop_ok (f : SnackList → Rgb → List (Snack × Nat) → Except Unit (List (Snack × Nat)))
    (Hf : ∀ rem' col' cur' m', rem'.WF → col'.inRange → f rem' col' cur' = .ok m' →
      MenuP col' rem' cur' m')
    (rem : SnackList) (col : Rgb) (cur : List (Snack × Nat))
    (hWF : rem.WF) (hcol : col.inRange) :
    ∀ (pending : List Snack) (menu m' : List (Snack × Nat)),
      (menu = [] ∨ MenuP col rem cur menu) →
      btLoop f rem col cur pending menu = .ok m' →
      (m' = [] ∨ MenuP col rem cur m') := by
  intro pending
  induction pending with
  | nil =>
    intro menu m' hinv h
    simp only [btLoop] at h
    cases h
    exact hinv
  | cons snack rest ih =>
    intro menu m' hinv h
    simp only [btLoop] at h
    by_cases hn : min (Qbound col snack) (rem.get snack) = 0
    · rw [if_pos hn] at h
      exact ih menu m' hinv h
    · rw [if_neg hn] at h
      have hqn : Qbound col snack ⊓ rem.get snack ≤ Qbound col snack := min_le_left _ _
      have hcnt : Qbound col snack ⊓ rem.get snack ≤ rem.get snack := min_le_right _ _
      have hgle := get_le rem snack
      cases hf : f (rem.set snack (rem.get snack - Qbound col snack ⊓ rem.get snack))
          (advance col snack (Qbound col snack ⊓ rem.get snack))
          (cur ++ [(snack, Qbound col snack ⊓ rem.get snack)]) with
      | error e =>
        rw [hf] at h
        simp only [bind, Except.bind] at h
        exact absurd h (by simp)
      | ok btRes =>
        rw [hf] at h
        simp only [bind, Except.bind] at h
        have hWF' : (rem.set snack (rem.get snack - Qbound col snack ⊓ rem.get snack)).WF :=
          WF_set _ _ _ hWF (by omega)
        have hcol' := (advance_spec col snack hcol _ hqn).1
        obtain ⟨suffix', he', ha'⟩ := Hf _ _ _ _ hWF' hcol' hf
        have hP : MenuP col rem cur btRes := by
          refine ⟨(snack, Qbound col snack ⊓ rem.get snack) :: suffix', ?_, ?_⟩
          · rw [he']
            simp
          · show (applySnackN col snack _).bind _ = _
            rw [applySnackN_eq snack _ col hcol hqn]
            simp only [Option.some_bind]
            rw [ha', endColor_step col hcol rem hWF snack _ hcnt hqn]
        have hinv' : (if btRes.length < menu.length ∨ menu = [] then btRes else menu) = []
            ∨ MenuP col rem cur (if btRes.length < menu.length ∨ menu = [] then btRes else menu) := by
          split_ifs
          · exact Or.inr hP
          · exact hinv
        exact ih _ m' hinv' h

/-! ## Classifier lemmas

`min_by_key` on a nonempty sequence returns its first minimal element. -/

theorem minByKey_split {α : Type} (key : α → Nat) :
    ∀ (xs : List α) (x : α),
    ∃ l1 l2, x :: xs = l1 ++ minByKey key x xs :: l2
      ∧ (∀ z ∈ l1, key (minByKey key x xs) < key z)
      ∧ (∀ z ∈ x :: xs, key (minByKey key x xs) ≤ key z) := by
  intro xs
  induction xs using List.reverseRecOn with
  | nil =>
    intro x
    refine ⟨[], [], rfl, by simp, ?_⟩
    intro z hz
    simp only [List.mem_singleton] at hz
    subst hz
    exact le_refl _
  | append_singleton ys y ih =>
    intro x
    obtain ⟨l1, l2, heq, hstrict, hmin⟩ := ih x
    have hfold : minByKey key x (ys ++ [y])
        = if key y < key (minByKey key x ys) then y else minByKey key x ys := by
      unfold minByKey
      rw [List.foldl_append]
      rfl
    by_cases hc : key y < key (minByKey key x ys)
    · rw [hfold, if_pos hc]
      refine ⟨x :: ys, [], by simp, ?_, ?_⟩
      · intro z hz
        exact lt_of_lt_of_le hc (hmin z hz)
      · intro z hz
        rw [show x :: (ys ++ [y]) = (x :: ys) ++ [y] from by simp] at hz
        rw [List.mem_append] at hz
        rcases hz with hz | hz
        · exact le_of_lt (lt_of_lt_of_le hc (hmin z hz))
        · simp only [List.mem_singleton] at hz
          subst hz
          exact le_refl _
    · rw [hfold, if_neg hc]
      refine ⟨l1, l2 ++ [y], ?_, hstrict, ?_⟩
      · rw [show x :: (ys ++ [y]) = (x :: ys) ++ [y] from by simp, heq]
        simp
      · intro z hz
        rw [show x :: (ys ++ [y]) = (x :: ys) ++ [y] from by simp] at hz
        rw [List.mem_append] at hz
        rcases hz with hz | hz
        · exact hmin z hz
        · simp only [List.mem_singleton] at hz
          subst hz
          omega

theorem minByKey_spec {α : Type} (key : α → Nat) (xs : List α) (x : α) :
    ∃ (k : Nat) (hk : k < (x :: xs).length),
      minByKey key x xs = (x :: xs).get ⟨k, hk⟩
      ∧ (∀ (j : Nat) (hj : j < (x :: xs).length),
          key (minByKey key x xs) ≤ key ((x :: xs).get ⟨j, hj⟩))
      ∧ (∀ (j : Nat) (hj : j < (x :: xs).length), j < k →
          key (minByKey key x xs) < key ((x :: xs).get ⟨j, hj⟩)) := by
  obtain ⟨l1, l2, heq, hstrict, hmin⟩ := minByKey_split key xs x
  have hlen : (x :: xs).length = l1.length + 1 + l2.length := by
    rw [heq]
    simp only [List.length_append, List.length_cons]
    omega
  have hk : l1.length < (x :: xs).length := by omega
  refine ⟨l1.length, hk, ?_, ?_, ?_⟩
  · rw [List.get_eq_getElem, List.getElem_of_eq heq hk]
    rw [List.getElem_append_right (le_refl _)]
    simp
  · intro j hj
    rw [List.get_eq_getElem]
    exact hmin _ (List.getElem_mem hj)
  · intro j hj hjk
    rw [List.get_eq_getElem, List.getElem_of_eq heq hj]
    have hjl : j < l1.length := hjk
    rw [List.getElem_append_left hjl]
    exact hstrict _ (List.getElem_mem hjl)


theorem btLoop_skip_all (f : SnackList → Rgb → List (Snack × Nat) → Except Unit (List (Snack × Nat)))
    (rem : SnackList) (col : Rgb) (cur : List (Snack × Nat)) :
    ∀ (pending : List Snack) (menu : List (Snack × Nat)),
    (∀ s ∈ pending, min (Qbound col s) (rem.get s) = 0) →
    btLoop f rem col cur pending menu = pure menu := by
  intro pending
  induction pending with
  | nil => intro menu _; rfl
  | cons snack rest ih =>
    intro menu h
    simp only [btLoop]
    rw [if_pos (h snack (List.mem_cons_self snack rest))]
    exact ih menu fun s hs => h s (List.mem_cons_of_mem _ hs)

theorem backtrack_dead_end (rem : SnackList) (col : Rgb) (cur : List (Snack × Nat))
    (fuel : Nat) (hne : rem.isEmpty = false)
    (hdead : ∀ s : Snack, min (Qbound col s) (rem.get s) = 0) :
    backtrackF (fuel + 1) rem col cur = .error () := by
  unfold backtrackF
  rw [btLoop_skip_all (backtrackF fuel) rem col cur Snack.VALUES []
    (fun s _ => hdead s)]
  simp [bind, Except.bind, pure, Except.pure, hne, throw, throwThe, MonadExceptOf.throw]


end Chocodye
namespace Chocodye

theorem backtrackF_ok : ∀ (fuel : Nat) (rem : SnackList) (col : Rgb)
    (cur m : List (Snack × Nat)), rem.WF → col.inRange →
    backtrackF fuel rem col cur = .ok m → MenuP col rem cur m := by
  intro fuel
  induction fuel with
  | zero =>
    intro rem col cur m _ _ h
    exact absurd h (by simp [backtrackF, throw, throwThe, MonadExceptOf.throw])
  | succ fuel ih =>
    intro rem col cur m hWF hcol h
    unfold backtrackF at h
    cases hb : btLoop (backtrackF fuel) rem col cur Snack.VALUES [] with
    | error e =>
      rw [hb] at h
      simp only [bind, Except.bind] at h
      exact absurd h (by simp)
    | ok menu =>
      rw [hb] at h
      simp only [bind, Except.bind] at h
      have hinv := btLoop_ok (backtrackF fuel)
        (fun rem' col' cur' m' hW hc hok => ih rem' col' cur' m' hW hc hok)
        rem col cur hWF hcol Snack.VALUES [] menu (Or.inl rfl) hb
      by_cases hm : menu = []
      · rw [hm] at h
        simp only [ne_eq, not_true_eq_false, if_false, reduceIte] at h
        by_cases he : rem.isEmpty
        · rw [if_pos he] at h
          cases h
          exact ⟨[], by simp, by rw [endColor_empty col hcol rem hWF he]; rfl⟩
        · rw [if_neg he] at h
          exact absurd h (by simp [throw, throwThe, MonadExceptOf.throw])
      · rw [if_pos hm] at h  -- `if menu ≠ []` with menu ≠ [] true
        cases h
        rcases hinv with h1 | h2
        · exact absurd h1 hm
        · exact h2


theorem checkedAddSigned1_neg (c : Nat) (d : Int)
    (h : ¬(0 ≤ (c : Int) + d ∧ (c : Int) + d ≤ 255)) :
    checkedAddSigned1 c d = none := by
  simp only [checkedAddSigned1]
  rw [if_neg h]

theorem alter_some (s : Snack) (c c1 : Rgb) (h : s.alter c = some c1) :
    ((c1.r : Int) = c.r + s.effect.1) ∧ ((c1.g : Int) = c.g + s.effect.2.1)
      ∧ ((c1.b : Int) = c.b + s.effect.2.2) ∧ c1.inRange := by
  by_cases h1 : (0 : Int) ≤ c.r + s.effect.1 ∧ (c.r : Int) + s.effect.1 ≤ 255
  · by_cases h2 : (0 : Int) ≤ c.g + s.effect.2.1 ∧ (c.g : Int) + s.effect.2.1 ≤ 255
    · by_cases h3 : (0 : Int) ≤ c.b + s.effect.2.2 ∧ (c.b : Int) + s.effect.2.2 ≤ 255
      · have he : s.alter c = some ⟨((c.r : Int) + s.effect.1).toNat,
            ((c.g : Int) + s.effect.2.1).toNat, ((c.b : Int) + s.effect.2.2).toNat⟩ := by
          unfold Snack.alter Rgb.checkedAddSigned
          rw [checkedAddSigned1_pos c.r _ h1.1 h1.2, checkedAddSigned1_pos c.g _ h2.1 h2.2,
            checkedAddSigned1_pos c.b _ h3.1 h3.2]
          rfl
        rw [he] at h
        cases h
        unfold Rgb.inRange
        dsimp only
        refine ⟨?_, ?_, ?_, ?_, ?_, ?_⟩ <;> omega
      · have he : s.alter c = none := by
          unfold Snack.alter Rgb.checkedAddSigned
          rw [checkedAddSigned1_pos c.r _ h1.1 h1.2, checkedAddSigned1_pos c.g _ h2.1 h2.2,
            checkedAddSigned1_neg c.b _ h3]
          rfl
        rw [he] at h
        exact absurd h (by simp)
    · have he : s.alter c = none := by
        unfold Snack.alter Rgb.checkedAddSigned
        rw [checkedAddSigned1_pos c.r _ h1.1 h1.2, checkedAddSigned1_neg c.g _ h2]
        rfl
      rw [he] at h
      exact absurd h (by simp)
  · have he : s.alter c = none := by
      unfold Snack.alter Rgb.checkedAddSigned
      rw [checkedAddSigned1_neg c.r _ h1]
      rfl
    rw [he] at h
    exact absurd h (by simp)


theorem sum_map_count_int (f : Snack → Int) (l : List Snack) :
    (l.map f).sum = (Snack.VALUES.map fun v => (l.count v : Int) * f v).sum := by
  induction l with
  | nil =>
    simp only [List.map_nil, List.sum_nil, Snack.VALUES, List.count_nil, List.map_cons,
      List.sum_cons, Nat.cast_zero, Int.zero_mul]
    omega
  | cons s t ih =>
    simp only [List.map_cons, List.sum_cons, ih, List.count_cons, beq_iff_eq]
    have hsplit : ∀ v : Snack, ((t.count v + if s = v then 1 else 0 : Nat) : Int) * f v
        = (t.count v : Int) * f v + (if s = v then f v else 0) := by
      intro v
      split_ifs <;> push_cast <;> ring
    simp only [hsplit]
    have hadd : (Snack.VALUES.map fun v => (t.count v : Int) * f v + (if s = v then f v else 0)).sum
        = (Snack.VALUES.map fun v => (t.count v : Int) * f v).sum
          + (Snack.VALUES.map fun v => if s = v then f v else 0).sum := by
      simp only [Snack.VALUES, List.map_cons, List.map_nil, List.sum_cons, List.sum_nil]
      ring
    rw [hadd]
    have hone : (Snack.VALUES.map fun v => if s = v then f v else 0).sum = f s := by
      cases s <;> simp [Snack.VALUES]
    rw [hone]
    ring

theorem applyMeal_spec : ∀ (meal : List Snack) (c e : Rgb), applyMeal c meal = some e →
    (e.r : Int) = c.r + (meal.map fun s => s.effect.1).sum
      ∧ (e.g : Int) = c.g + (meal.map fun s => s.effect.2.1).sum
      ∧ (e.b : Int) = c.b + (meal.map fun s => s.effect.2.2).sum := by
  intro meal
  induction meal with
  | nil =>
    intro c e h
    cases h
    simp only [List.map_nil, List.sum_nil]
    refine ⟨?_, ?_, ?_⟩ <;> ring
  | cons s rest ih =>
    intro c e h
    change (s.alter c).bind (fun c' => applyMeal c' rest) = some e at h
    cases halter : s.alter c with
    | none =>
      rw [halter] at h
      exact absurd h (by simp)
    | some c1 =>
      rw [halter] at h
      simp only [Option.some_bind] at h
      obtain ⟨e1, e2, e3, _⟩ := alter_some s c c1 halter
      obtain ⟨f1, f2, f3⟩ := ih c1 e h
      simp only [List.map_cons, List.sum_cons]
      refine ⟨?_, ?_, ?_⟩
      · rw [f1, e1]; ring
      · rw [f2, e2]; ring
      · rw [f3, e3]; ring

/-! ## Claims

One theorem per claim of the specification review, with a closed witness
for each theorem that carries hypotheses. -/

/-- C2: For a start color and a snack multiset obtained from a meal —
modelled, per spec §4.3, as a snack list whose in-order checked
application from the start succeeds (every committed `make_meal` step is
a successful `alter`), with per-snack counts fitting the multiset's byte
counters — if `make_menu` completes (per spec §4.4 its dead-end
`debug_assert!` never fires on such inputs), then applying the returned
`(snack, count)` batches in order, each batch as `count` single checked
applications (so no intermediate application leaves `[0, 255]`), reaches
exactly the end color of the original meal. -/
theorem make_menu_correct (start : Rgb) (hstart : start.inRange) (meal : List Snack)
    (hcnt : ∀ s, meal.count s ≤ 255) (e : Rgb) (hmeal : applyMeal start meal = some e)
    (menu : List (Snack × Nat))
    (hmenu : makeMenu start (SnackList.fromList meal) = .ok menu) :
    applyMenu start menu = some e := by
  have hWF := fromList_WF meal hcnt
  obtain ⟨suffix, heq, happ⟩ := backtrackF_ok _ _ _ _ _ hWF hstart hmenu
  rw [List.nil_append] at heq
  subst heq
  rw [happ]
  congr 1
  obtain ⟨f1, f2, f3⟩ := applyMeal_spec meal start e hmeal
  rw [sum_map_count_int (fun s => s.effect.1) meal] at f1
  rw [sum_map_count_int (fun s => s.effect.2.1) meal] at f2
  rw [sum_map_count_int (fun s => s.effect.2.2) meal] at f3
  unfold endColor
  have hg : ∀ v : Snack, ((SnackList.fromList meal).get v : Int) = (meal.count v : Int) := by
    intro v
    rw [fromList_get meal hcnt v]
  simp only [hg]
  exact Rgb.ext' _ _ (by dsimp only; omega) (by dsimp only; omega) (by dsimp only; omega)

/-- Witness for C2: compacting the one-apple meal from `(100, 100, 100)`. -/
theorem make_menu_correct_witness :
    applyMenu ⟨100, 100, 100⟩ [(Snack.Apple, 1)] = some ⟨105, 95, 95⟩ :=
  make_menu_correct ⟨100, 100, 100⟩ (by decide) [Snack.Apple] (by decide)
    ⟨105, 95, 95⟩ (by decide) [(Snack.Apple, 1)] rfl

/-- C5: For every RGB color, the classifier returns the palette entry with
the minimal squared Euclidean distance to it, ties going to the
earlier-enumerated entry (every strictly earlier entry has strictly larger
distance), wrapped in `Ok` exactly when that entry's RGB equals the input
and in `Err` otherwise. Stated for an arbitrary nonempty palette, the
table itself being build-time data outside `src/`. -/
theorem tryFrom_spec (palette : Palette) (value : Rgb) (hne : palette ≠ []) :
    ∃ (i : Nat) (hi : i < List.length palette),
      tryFrom palette value
        = some (if List.get palette ⟨i, hi⟩ = value
                then .ok (i, List.get palette ⟨i, hi⟩)
                else .error (i, List.get palette ⟨i, hi⟩))
      ∧ (∀ (j : Nat) (hj : j < List.length palette),
          (List.get palette ⟨i, hi⟩).distance value ≤ (List.get palette ⟨j, hj⟩).distance value)
      ∧ (∀ (j : Nat) (hj : j < List.length palette), j < i →
          (List.get palette ⟨i, hi⟩).distance value < (List.get palette ⟨j, hj⟩).distance value) := by
  cases palette with
  | nil => exact absurd rfl hne
  | cons p ps =>
    obtain ⟨k, hk, hbest, hmin, hstrict⟩ :=
      minByKey_spec (fun q => q.2.distance value) (List.enumFrom 1 ps) (0, p)
    have henum : (p :: ps).enum = (0, p) :: List.enumFrom 1 ps := List.enum_cons
    have hlen : ((0, p) :: List.enumFrom 1 ps).length = (p :: ps).length := by
      rw [← henum, List.enum_length]
    have hi : k < (p :: ps).length := by omega
    have hget : ∀ (j : Nat) (hj : j < (p :: ps).length)
        (hj' : j < ((0, p) :: List.enumFrom 1 ps).length),
        ((0, p) :: List.enumFrom 1 ps).get ⟨j, hj'⟩ = (j, (p :: ps).get ⟨j, hj⟩) := by
      intro j hj hj'
      rw [List.get_eq_getElem, List.get_eq_getElem, ← List.getElem_of_eq henum hj']
      exact List.getElem_enum _ _ _
    refine ⟨k, hi, ?_, ?_, ?_⟩
    · unfold tryFrom
      simp only [henum]
      rw [hbest, hget k hi hk]
    · intro j hj
      have hj' : j < ((0, p) :: List.enumFrom 1 ps).length := by omega
      have hle := hmin j hj'
      rw [hbest, hget k hi hk, hget j hj hj'] at hle
      exact hle
    · intro j hj hjk
      have hj' : j < ((0, p) :: List.enumFrom 1 ps).length := by omega
      have hlt := hstrict j hj' hjk
      rw [hbest, hget k hi hk, hget j hj hj'] at hlt
      exact hlt

/-- Witness for C5: a two-entry palette, classifying a non-exact color. -/
theorem tryFrom_spec_witness :
    ∃ (i : Nat) (hi : i < List.length ([⟨0, 0, 0⟩, ⟨10, 0, 0⟩] : Palette)),
      tryFrom [⟨0, 0, 0⟩, ⟨10, 0, 0⟩] ⟨1, 0, 0⟩
        = some (if List.get ([⟨0, 0, 0⟩, ⟨10, 0, 0⟩] : Palette) ⟨i, hi⟩ = ⟨1, 0, 0⟩
                then .ok (i, List.get ([⟨0, 0, 0⟩, ⟨10, 0, 0⟩] : Palette) ⟨i, hi⟩)
                else .error (i, List.get ([⟨0, 0, 0⟩, ⟨10, 0, 0⟩] : Palette) ⟨i, hi⟩))
      ∧ (∀ (j : Nat) (hj : j < List.length ([⟨0, 0, 0⟩, ⟨10, 0, 0⟩] : Palette)),
          (List.get ([⟨0, 0, 0⟩, ⟨10, 0, 0⟩] : Palette) ⟨i, hi⟩).distance ⟨1, 0, 0⟩
            ≤ (List.get ([⟨0, 0, 0⟩, ⟨10, 0, 0⟩] : Palette) ⟨j, hj⟩).distance ⟨1, 0, 0⟩)
      ∧ (∀ (j : Nat) (hj : j < List.length ([⟨0, 0, 0⟩, ⟨10, 0, 0⟩] : Palette)), j < i →
          (List.get ([⟨0, 0, 0⟩, ⟨10, 0, 0⟩] : Palette) ⟨i, hi⟩).distance ⟨1, 0, 0⟩
            < (List.get ([⟨0, 0, 0⟩, ⟨10, 0, 0⟩] : Palette) ⟨j, hj⟩).distance ⟨1, 0, 0⟩) :=
  tryFrom_spec [⟨0, 0, 0⟩, ⟨10, 0, 0⟩] ⟨1, 0, 0⟩ (by decide)

/-- C7: On every well-formed multiset word (spec §3: a count in `[0, 255]`
per snack), `set` then `get` round-trips exactly; `is_empty` holds iff all
six counts are zero; `sum` is the arithmetic total of the six counts; and
`kinds` is the number of snacks with a nonzero count. -/
theorem snacklist_ops (sl : SnackList) (hWF : sl.WF) (s : Snack) (v : Nat) (hv : v ≤ 255) :
    (sl.set s v).get s = v
      ∧ (sl.isEmpty = true ↔ ∀ t : Snack, sl.get t = 0)
      ∧ sl.sum = (Snack.VALUES.map sl.get).sum
      ∧ sl.kinds = Snack.VALUES.countP (fun t => sl.get t != 0) :=
  ⟨get_set_same sl s v hWF hv, isEmpty_iff sl hWF, sum_eq sl hWF, kinds_eq sl hWF⟩

/-- Witness for C7: the multiset with three pears, setting seven apples. -/
theorem snacklist_ops_witness :
    ((SnackList.new.set .Pear 3).set Snack.Apple 7).get Snack.Apple = 7
      ∧ ((SnackList.new.set .Pear 3).isEmpty = true
          ↔ ∀ t : Snack, (SnackList.new.set .Pear 3).get t = 0)
      ∧ (SnackList.new.set .Pear 3).sum
          = (Snack.VALUES.map (SnackList.new.set .Pear 3).get).sum
      ∧ (SnackList.new.set .Pear 3).kinds
          = Snack.VALUES.countP (fun t => (SnackList.new.set .Pear 3).get t != 0) :=
  snacklist_ops (SnackList.new.set .Pear 3) (by decide) Snack.Apple 7 (by decide)

/-- C8: For every in-range channel triple and every snack (all per-channel
deltas are `±5`, hence nonzero), the helper `max` computes per channel the
largest repeat count keeping that channel in `[0, 255]` — the admissible
counts are exactly those `≤ max` — and `Q` is the minimum of the three
per-channel bounds. -/
theorem repeat_bound_spec (c : Rgb) (hc : c.inRange) (s : Snack) :
    (∀ n : Nat, ((0 : Int) ≤ c.r + n * s.effect.1 ∧ (c.r : Int) + n * s.effect.1 ≤ 255)
        ↔ n ≤ maxRepeat c.r s.effect.1)
      ∧ (∀ n : Nat, ((0 : Int) ≤ c.g + n * s.effect.2.1 ∧ (c.g : Int) + n * s.effect.2.1 ≤ 255)
        ↔ n ≤ maxRepeat c.g s.effect.2.1)
      ∧ (∀ n : Nat, ((0 : Int) ≤ c.b + n * s.effect.2.2 ∧ (c.b : Int) + n * s.effect.2.2 ≤ 255)
        ↔ n ≤ maxRepeat c.b s.effect.2.2)
      ∧ Qbound c s
        = min (min (maxRepeat c.r s.effect.1) (maxRepeat c.g s.effect.2.1))
            (maxRepeat c.b s.effect.2.2) := by
  obtain ⟨hr, hg, hb⟩ := hc
  obtain ⟨er, eg, eb⟩ := effect_pm5 s
  exact ⟨fun n => maxRepeat_iff c.r hr _ er n, fun n => maxRepeat_iff c.g hg _ eg n,
    fun n => maxRepeat_iff c.b hb _ eb n, rfl⟩

/-- Witness for C8: the bound for apples at `(250, 3, 128)`. -/
theorem repeat_bound_spec_witness :
    (∀ n : Nat, ((0 : Int) ≤ (250 : Nat) + n * Snack.Apple.effect.1
          ∧ ((250 : Nat) : Int) + n * Snack.Apple.effect.1 ≤ 255)
        ↔ n ≤ maxRepeat 250 Snack.Apple.effect.1)
      ∧ (∀ n : Nat, ((0 : Int) ≤ (3 : Nat) + n * Snack.Apple.effect.2.1
          ∧ ((3 : Nat) : Int) + n * Snack.Apple.effect.2.1 ≤ 255)
        ↔ n ≤ maxRepeat 3 Snack.Apple.effect.2.1)
      ∧ (∀ n : Nat, ((0 : Int) ≤ (128 : Nat) + n * Snack.Apple.effect.2.2
          ∧ ((128 : Nat) : Int) + n * Snack.Apple.effect.2.2 ≤ 255)
        ↔ n ≤ maxRepeat 128 Snack.Apple.effect.2.2)
      ∧ Qbound ⟨250, 3, 128⟩ Snack.Apple
        = min (min (maxRepeat 250 Snack.Apple.effect.1) (maxRepeat 3 Snack.Apple.effect.2.1))
            (maxRepeat 128 Snack.Apple.effect.2.2) :=
  repeat_bound_spec ⟨250, 3, 128⟩ (by decide) Snack.Apple

/-- C9: Whenever every snack's usable count (`min(Q, count)`) is zero while
the remaining multiset is nonempty, `backtrack` — and hence `make_menu` —
aborts (the `debug_assert!` of builds with debug assertions, modelled as a
fatal error) instead of returning a menu silently. -/
theorem backtrack_dead_end_fatal (rem : SnackList) (col : Rgb) (cur : List (Snack × Nat))
    (fuel : Nat) (hne : rem.isEmpty = false)
    (hdead : ∀ s : Snack, min (Qbound col s) (rem.get s) = 0) :
    backtrackF (fuel + 1) rem col cur = .error () ∧ makeMenu col rem = .error () :=
  ⟨backtrack_dead_end rem col cur fuel hne hdead,
    backtrack_dead_end rem col [] rem.sum hne hdead⟩

/-- Witness for C9: one apple left at `(255, 0, 0)` — every snack either
has count zero or would overflow a channel. -/
theorem backtrack_dead_end_fatal_witness :
    backtrackF (0 + 1) (SnackList.new.set Snack.Apple 1) ⟨255, 0, 0⟩ [] = .error ()
      ∧ makeMenu ⟨255, 0, 0⟩ (SnackList.new.set Snack.Apple 1) = .error () :=
  backtrack_dead_end_fatal (SnackList.new.set Snack.Apple 1) ⟨255, 0, 0⟩ [] 0
    (by decide) (by decide)

/-- C10: For every snack slice in which each variant occurs at most 255
times, the `From<&[Snack]>` conversion yields a multiset whose per-snack
counts are exactly the slice's occurrence counts. -/
theorem from_slice_counts (l : List Snack) (h : ∀ s : Snack, l.count s ≤ 255) (s : Snack) :
    (SnackList.fromList l).get s = l.count s :=
  fromList_get l h s

/-- Witness for C10: two apples and a pear. -/
theorem from_slice_counts_witness :
    (SnackList.fromList [Snack.Apple, Snack.Pear, Snack.Apple]).get Snack.Apple
      = List.count Snack.Apple [Snack.Apple, Snack.Pear, Snack.Apple] :=
  from_slice_counts [Snack.Apple, Snack.Pear, Snack.Apple] (by decide) Snack.Apple

end Chocodye
